import Mathlib

/-!
Verification of the boot-info memory-map core (`src/bootinfo.rs`).

Shallow embedding notes:
* Physical frames are represented by their frame number (`Nat`); the
  `x86_64` crate's `PhysFrame::containing_address(PhysAddr::new(a))`
  becomes `a / 4096` after the `PhysAddr::new` validity assertion
  (bits 52..64 must be zero, i.e. the address is `< 2^52`; a violation
  panics, modelled as `BootError.invalidPhysAddr`).
* `u64` addition in `region.start_addr + region.len` wraps; it is
  modelled as addition modulo `2^64`.
* Rust panics (unknown E820 type code, out-of-bounds array write,
  the `two non-usable regions overlap` panic) are modelled as
  `Except.error` values of type `BootError`.
* `sort_unstable_by` is modelled as a comparison sort (insertion sort)
  driven by the exact comparator from the source.  The Rust result is
  some permutation that is sorted with respect to the comparator; the
  relative order of elements the comparator does not separate is
  unspecified in Rust, and insertion sort is the deterministic
  representative used here.
* The unsafe raw-slice read in `create_from` is modelled by passing the
  descriptor array directly as a `List`; the `entry_count` argument is
  its length.
-/

/-- Half-open range of physical frames; models `PhysFrameRange`.
`stop` models the source field `end` (a Lean keyword). -/
structure PhysFrameRange where
  start : Nat
  stop : Nat
deriving DecidableEq, Repr

/-- Models `PhysFrameRange::is_empty`, which is `!(self.start < self.end)`. -/
def PhysFrameRange.isEmpty (r : PhysFrameRange) : Bool :=
  !(decide (r.start < r.stop))

/-- Models the `MemoryRegionType` enumeration. -/
inductive MemoryRegionType where
  | Usable
  | InUse
  | Reserved
  | AcpiReclaimable
  | AcpiNvs
  | BadMemory
  | Kernel
  | KernelStack
  | PageTable
  | Bootloader
  | FrameZero
  | Empty
  | BootInfo
  | Package
deriving DecidableEq, Repr

/-- Models `MemoryRegion`. -/
structure MemoryRegion where
  range : PhysFrameRange
  region_type : MemoryRegionType
deriving DecidableEq, Repr

/-- Models `MemoryRegion::empty()`: a zero-length range at frame 0. -/
def MemoryRegion.empty : MemoryRegion :=
  { range := { start := 0, stop := 0 }, region_type := MemoryRegionType.Empty }

deriving instance DecidableEq for Except

/-- Fatal conditions (Rust panics) of the core. -/
inductive BootError where
  | unknownRegionType (t : Nat)
  | invalidPhysAddr (a : Nat)
  | indexOutOfBounds
  | unresolvedOverlap (region next : MemoryRegion)
deriving DecidableEq, Repr

/-- Models `MemoryMap`: 32 entries plus the `next_entry_index` cursor.
The fixed-size array is a `List` whose length is kept at 32. -/
structure MemoryMap where
  entries : List MemoryRegion
  next_entry_index : Nat
deriving DecidableEq, Repr

/-- Models `MemoryMap::new()`. -/
def MemoryMap.new : MemoryMap :=
  { entries := List.replicate 32 MemoryRegion.empty, next_entry_index := 0 }

/-- The comparator passed to `sort_unstable_by` in `MemoryMap::sort`:
empty ranges compare greater than everything, otherwise order by
start address with ties broken by end address. -/
def cmpRegion (r1 r2 : MemoryRegion) : Ordering :=
  if r1.range.isEmpty then Ordering.gt
  else if r2.range.isEmpty then Ordering.lt
  else
    let ordering := compare r1.range.start r2.range.start
    if ordering = Ordering.eq then compare r1.range.stop r2.range.stop
    else ordering

/-- Insert one element into a list sorted by the comparator: the element
goes before the first entry it does not compare greater than. -/
def insertCmp (cmp : MemoryRegion → MemoryRegion → Ordering)
    (x : MemoryRegion) : List MemoryRegion → List MemoryRegion
  | [] => [x]
  | y :: ys =>
    if cmp x y = Ordering.gt then y :: insertCmp cmp x ys
    else x :: y :: ys

/-- Comparison sort modelling `sort_unstable_by` with comparator `cmp`. -/
def sortCmp (cmp : MemoryRegion → MemoryRegion → Ordering) :
    List MemoryRegion → List MemoryRegion
  | [] => []
  | x :: xs => insertCmp cmp x (sortCmp cmp xs)

/-- Models `self.entries.iter().position(|r| r.range.is_empty())`. -/
def firstEmptyIdx : List MemoryRegion → Option Nat
  | [] => none
  | r :: rs =>
    if r.range.isEmpty then some 0 else (firstEmptyIdx rs).map (· + 1)

/-- Models `MemoryMap::sort`: sort all 32 entries with `cmpRegion`, then
recompute the cursor as the position of the first empty entry (leaving it
unchanged when no entry is empty). -/
def MemoryMap.sort (m : MemoryMap) : MemoryMap :=
  let entries := sortCmp cmpRegion m.entries
  { entries := entries,
    next_entry_index :=
      match firstEmptyIdx entries with
      | some first_zero_index => first_zero_index
      | none => m.next_entry_index }

/-- Models `MemoryMap::add_region`: write at the cursor slot (the implicit
Rust bounds check panics when the cursor is past the array, modelled as
`indexOutOfBounds`), advance the cursor, then re-sort. -/
def MemoryMap.add_region (m : MemoryMap) (region : MemoryRegion) :
    Except BootError MemoryMap :=
  if m.next_entry_index < m.entries.length then
    Except.ok (MemoryMap.sort
      { entries := m.entries.set m.next_entry_index region,
        next_entry_index := m.next_entry_index + 1 })
  else
    Except.error BootError.indexOutOfBounds

/-- Models the `Deref` impl: the exposed live entries
`&self.entries[0..self.next_entry_index()]`. -/
def MemoryMap.liveRegions (m : MemoryMap) : List MemoryRegion :=
  m.entries.take m.next_entry_index

/-- Models `BootInfo` (page-table root, finished map, borrowed payload). -/
structure BootInfo where
  p4_table_addr : Nat
  memory_map : MemoryMap
  package : List Nat
deriving DecidableEq, Repr

/-- Models `BootInfo::new`. -/
def BootInfo.new (p4_table_addr : Nat) (memory_map : MemoryMap)
    (package : List Nat) : BootInfo :=
  { p4_table_addr, memory_map, package }

/-- Models a raw firmware descriptor `E820MemoryRegion`. -/
structure E820MemoryRegion where
  start_addr : Nat
  len : Nat
  region_type : Nat
  acpi_extended_attributes : Nat
deriving DecidableEq, Repr

/-- Models `PhysAddr::new`: the address must have no bits in 52..64 set
(the assertion failure panics). -/
def physAddrNew (addr : Nat) : Except BootError Nat :=
  if addr < 2 ^ 52 then Except.ok addr
  else Except.error (BootError.invalidPhysAddr addr)

/-- Models `PhysFrame::containing_address`: the number of the frame
holding the address (floor to 4096-byte granularity). -/
def physFrameContaining (addr : Nat) : Nat :=
  addr / 4096

/-- The `match region.region_type` arms of the `From` impl: type codes
1-5 classify; any other code panics `invalid region type`. -/
def memoryRegionTypeOfCode : Nat → Except BootError MemoryRegionType
  | 1 => Except.ok MemoryRegionType.Usable
  | 2 => Except.ok MemoryRegionType.Reserved
  | 3 => Except.ok MemoryRegionType.AcpiReclaimable
  | 4 => Except.ok MemoryRegionType.AcpiNvs
  | 5 => Except.ok MemoryRegionType.BadMemory
  | t => Except.error (BootError.unknownRegionType t)

/-- Models `From<E820MemoryRegion> for MemoryRegion`: classify the type
code, then build the frame range from `start_addr` (rounded down to a
frame) to `start_addr + len` (u64 wrapping sum, rounded down to a
frame). -/
def memoryRegionFromE820 (region : E820MemoryRegion) :
    Except BootError MemoryRegion :=
  match memoryRegionTypeOfCode region.region_type with
  | Except.error e => Except.error e
  | Except.ok region_type =>
    match physAddrNew region.start_addr,
          physAddrNew ((region.start_addr + region.len) % 2 ^ 64) with
    | Except.ok s, Except.ok e =>
      Except.ok
        { range := { start := physFrameContaining s,
                     stop := physFrameContaining e },
          region_type := region_type }
    | Except.error e, _ => Except.error e
    | _, Except.error e => Except.error e

/-- Models the `while let / peek` normalization loop of `create_from`:
scan adjacent pairs; when the earlier region overhangs the next one,
truncate it if it is `Usable`, otherwise panic (modelled as
`unresolvedOverlap`). -/
def normalizePass : List MemoryRegion → Except BootError (List MemoryRegion)
  | [] => Except.ok []
  | [region] => Except.ok [region]
  | region :: next :: rest =>
    if next.range.start < region.range.stop then
      if region.region_type = MemoryRegionType.Usable then
        Except.map
          (fun tail =>
            { region with range := { region.range with stop := next.range.start } } :: tail)
          (normalizePass (next :: rest))
      else
        Except.error (BootError.unresolvedOverlap region next)
    else
      Except.map (fun tail => region :: tail) (normalizePass (next :: rest))

/-- Models `create_from`: convert and insert every raw descriptor, sort,
then run the normalization pass in place over the live prefix (the
`DerefMut` slice), leaving the rest of the array and the cursor
untouched. -/
def create_from (e820_memory_map : List E820MemoryRegion) :
    Except BootError MemoryMap :=
  match e820_memory_map.foldlM
      (fun m region => (memoryRegionFromE820 region).bind m.add_region)
      MemoryMap.new with
  | Except.error e => Except.error e
  | Except.ok memory_map =>
    let memory_map := memory_map.sort
    match normalizePass memory_map.liveRegions with
    | Except.error e => Except.error e
    | Except.ok live =>
      Except.ok
        { entries := live ++ memory_map.entries.drop memory_map.next_entry_index,
          next_entry_index := memory_map.next_entry_index }

/-- Inserting a list of regions one by one into a fresh map, the harness
for claims about arbitrary `add_region` sequences. -/
def addAll (rs : List MemoryRegion) : Except BootError MemoryMap :=
  rs.foldlM (fun m r => m.add_region r) MemoryMap.new

/-! ## Ordering relations used by the specification statements -/

/-- Non-strict `(start, end)` lexicographic order on regions. -/
def lexLe (a b : MemoryRegion) : Prop :=
  a.range.start < b.range.start ∨
    (a.range.start = b.range.start ∧ a.range.stop ≤ b.range.stop)

/-- Strict `(start, end)` lexicographic order on regions. -/
def lexLt (a b : MemoryRegion) : Prop :=
  a.range.start < b.range.start ∨
    (a.range.start = b.range.start ∧ a.range.stop < b.range.stop)

/-- Disjointness of the half-open frame ranges of two regions. -/
def disjointR (a b : MemoryRegion) : Prop :=
  a.range.stop ≤ b.range.start ∨ b.range.stop ≤ a.range.start

/-- The order the comparator of `MemoryMap::sort` establishes: emptiness
propagates forward (all empty entries sink to the end), and non-empty
entries are in non-strict `(start, end)` lexicographic order. -/
def relOk (a b : MemoryRegion) : Prop :=
  (a.range.isEmpty = true → b.range.isEmpty = true) ∧
    (b.range.isEmpty = false → lexLe a b)

instance (a b : MemoryRegion) : Decidable (lexLe a b) := by
  unfold lexLe; exact inferInstance

instance (a b : MemoryRegion) : Decidable (lexLt a b) := by
  unfold lexLt; exact inferInstance

instance (a b : MemoryRegion) : Decidable (disjointR a b) := by
  unfold disjointR; exact inferInstance

instance (a b : MemoryRegion) : Decidable (relOk a b) := by
  unfold relOk; exact inferInstance

theorem frameRange_isEmpty_iff {r : PhysFrameRange} :
    r.isEmpty = true ↔ r.stop ≤ r.start := by
  simp [PhysFrameRange.isEmpty, Nat.not_lt]

theorem frameRange_isEmpty_eq_false {r : PhysFrameRange} :
    r.isEmpty = false ↔ r.start < r.stop := by
  simp [PhysFrameRange.isEmpty]

theorem lexLe_trans {a b c : MemoryRegion} (h1 : lexLe a b) (h2 : lexLe b c) :
    lexLe a c := by
  unfold lexLe at *; omega

theorem relOk_trans {a b c : MemoryRegion} (h1 : relOk a b) (h2 : relOk b c) :
    relOk a c := by
  refine ⟨fun ha => h2.1 (h1.1 ha), fun hc => ?_⟩
  by_cases hb : b.range.isEmpty = true
  · have := h2.1 hb
    rw [this] at hc; cases hc
  · have hb' : b.range.isEmpty = false := by
      cases hbv : b.range.isEmpty
      · rfl
      · exact absurd hbv hb
    exact lexLe_trans (h1.2 hb') (h2.2 hc)

theorem cmpRegion_gt {a b : MemoryRegion}
    (h : cmpRegion a b = Ordering.gt) : relOk b a := by
  unfold cmpRegion at h
  by_cases ha : a.range.isEmpty = true
  · exact ⟨fun _ => ha, fun hfa => absurd ha (by simp [hfa])⟩
  · by_cases hb : b.range.isEmpty = true
    · simp [ha, hb] at h
    · refine ⟨fun hbe => absurd hbe hb, fun _ => ?_⟩
      simp [ha, hb] at h
      rcases hc : compare a.range.start b.range.start with _ | _ | _
      · rw [hc] at h; simp at h
      · rw [hc] at h; simp at h
        rw [Nat.compare_eq_gt] at h
        rw [Nat.compare_eq_eq] at hc
        exact Or.inr ⟨hc.symm, Nat.le_of_lt h⟩
      · rw [Nat.compare_eq_gt] at hc
        exact Or.inl hc

theorem cmpRegion_ngt {a b : MemoryRegion}
    (h : cmpRegion a b ≠ Ordering.gt) : relOk a b := by
  unfold cmpRegion at h
  by_cases ha : a.range.isEmpty = true
  · exact absurd (by simp [ha]) h
  · by_cases hb : b.range.isEmpty = true
    · exact ⟨fun hae => absurd hae ha, fun hbf => absurd hb (by simp [hbf])⟩
    · refine ⟨fun hae => absurd hae ha, fun _ => ?_⟩
      simp [ha, hb] at h
      rcases hc : compare a.range.start b.range.start with _ | _ | _
      · rw [Nat.compare_eq_lt] at hc
        exact Or.inl hc
      · rw [hc] at h; simp at h
        rw [Nat.compare_eq_eq] at hc
        refine Or.inr ⟨hc, Nat.not_lt.mp (fun hlt => h (Nat.compare_eq_gt.mpr hlt))⟩
      · rw [hc] at h; simp at h

/-! ## The sort models: permutation and order facts -/

theorem insertCmp_perm (cmp : MemoryRegion → MemoryRegion → Ordering)
    (x : MemoryRegion) (l : List MemoryRegion) :
    (insertCmp cmp x l).Perm (x :: l) := by
  induction l with
  | nil => exact List.Perm.refl _
  | cons y ys ih =>
    rw [insertCmp]
    by_cases hc : cmp x y = Ordering.gt
    · simp only [hc, if_true]
      exact (ih.cons y).trans (List.Perm.swap x y ys)
    · simp only [hc, if_false]
      exact List.Perm.refl _

theorem sortCmp_perm (cmp : MemoryRegion → MemoryRegion → Ordering)
    (l : List MemoryRegion) : (sortCmp cmp l).Perm l := by
  induction l with
  | nil => exact List.Perm.refl _
  | cons x xs ih =>
    rw [sortCmp]
    exact (insertCmp_perm cmp x (sortCmp cmp xs)).trans (ih.cons x)

theorem insertCmp_pairwise {x : MemoryRegion} {l : List MemoryRegion}
    (h : l.Pairwise relOk) : (insertCmp cmpRegion x l).Pairwise relOk := by
  induction l with
  | nil => simp [insertCmp]
  | cons y ys ih =>
    rcases List.pairwise_cons.mp h with ⟨hy, hys⟩
    rw [insertCmp]
    by_cases hc : cmpRegion x y = Ordering.gt
    · simp only [hc, if_true]
      refine List.pairwise_cons.mpr ⟨?_, ih hys⟩
      intro z hz
      rcases List.mem_cons.mp
          ((insertCmp_perm cmpRegion x ys).mem_iff.mp hz) with rfl | hzys
      · exact cmpRegion_gt hc
      · exact hy z hzys
    · simp only [hc, if_false]
      refine List.pairwise_cons.mpr ⟨?_, h⟩
      intro z hz
      rcases List.mem_cons.mp hz with rfl | hzys
      · exact cmpRegion_ngt hc
      · exact relOk_trans (cmpRegion_ngt hc) (hy z hzys)

theorem sortCmp_pairwise (l : List MemoryRegion) :
    (sortCmp cmpRegion l).Pairwise relOk := by
  induction l with
  | nil => simp [sortCmp]
  | cons x xs ih =>
    rw [sortCmp]
    exact insertCmp_pairwise ih

/-! ## Shape of a comparator-sorted entry array -/

/-- The non-empty entries of a list, in order. -/
def nonEmptyRegions (l : List MemoryRegion) : List MemoryRegion :=
  l.filter (fun r => !r.range.isEmpty)

theorem nonEmptyRegions_perm {l1 l2 : List MemoryRegion} (h : l1.Perm l2) :
    (nonEmptyRegions l1).Perm (nonEmptyRegions l2) :=
  h.filter _

theorem nonEmptyRegions_cons (r : MemoryRegion) (l : List MemoryRegion) :
    nonEmptyRegions (r :: l) = nonEmptyRegions [r] ++ nonEmptyRegions l := by
  by_cases hr : r.range.isEmpty = true <;>
    simp [nonEmptyRegions, List.filter, hr]

/-- A list that is pairwise `relOk` splits into a non-empty prefix
followed by an all-empty suffix. -/
theorem sorted_split {l : List MemoryRegion} (h : l.Pairwise relOk) :
    ∃ a b, l = a ++ b ∧ (∀ r ∈ a, r.range.isEmpty = false) ∧
      (∀ r ∈ b, r.range.isEmpty = true) := by
  induction l with
  | nil => exact ⟨[], [], rfl, by simp, by simp⟩
  | cons x xs ih =>
    rcases List.pairwise_cons.mp h with ⟨hx, hxs⟩
    by_cases he : x.range.isEmpty = true
    · refine ⟨[], x :: xs, rfl, by simp, ?_⟩
      intro r hr
      rcases List.mem_cons.mp hr with rfl | hr
      · exact he
      · exact (hx r hr).1 he
    · rcases ih hxs with ⟨a, b, rfl, hna, hb⟩
      refine ⟨x :: a, b, rfl, ?_, hb⟩
      intro r hr
      rcases List.mem_cons.mp hr with rfl | hr
      · simpa using he
      · exact hna r hr

theorem firstEmptyIdx_none {l : List MemoryRegion}
    (h : ∀ r ∈ l, r.range.isEmpty = false) : firstEmptyIdx l = none := by
  induction l with
  | nil => rfl
  | cons x xs ih =>
    rw [firstEmptyIdx]
    rw [h x (List.mem_cons_self x xs)]
    simp [ih (fun r hr => h r (List.mem_cons_of_mem x hr))]

theorem firstEmptyIdx_append {a : List MemoryRegion} {x : MemoryRegion}
    (b : List MemoryRegion) (ha : ∀ r ∈ a, r.range.isEmpty = false)
    (hx : x.range.isEmpty = true) :
    firstEmptyIdx (a ++ x :: b) = some a.length := by
  induction a with
  | nil => simp [firstEmptyIdx, hx]
  | cons y a' ih =>
    rw [List.cons_append, firstEmptyIdx]
    rw [ha y (List.mem_cons_self y a')]
    simp [ih (fun r hr => ha r (List.mem_cons_of_mem y hr))]

theorem nonEmptyRegions_split {a b : List MemoryRegion}
    (ha : ∀ r ∈ a, r.range.isEmpty = false)
    (hb : ∀ r ∈ b, r.range.isEmpty = true) :
    nonEmptyRegions (a ++ b) = a := by
  rw [nonEmptyRegions, List.filter_append]
  rw [List.filter_eq_self.mpr (by intro r hr; simp [ha r hr])]
  rw [List.filter_eq_nil_iff.mpr (by intro r hr; simp [hb r hr])]
  simp

theorem set_at_split (a : List MemoryRegion) (x r : MemoryRegion)
    (b : List MemoryRegion) :
    (a ++ x :: b).set a.length r = a ++ r :: b := by
  induction a with
  | nil => rfl
  | cons y a' ih => simp [List.set, ih]

/-! ## The MemoryMap invariant maintained by `add_region` and `sort` -/

/-- Invariant of a `MemoryMap` as produced by the operations: the backing
array keeps its 32 slots, is sorted in the comparator's order, and the
cursor equals the number of non-empty entries. -/
def MemoryMap.Inv (m : MemoryMap) : Prop :=
  m.entries.length = 32 ∧
    m.entries.Pairwise relOk ∧
    m.next_entry_index = (nonEmptyRegions m.entries).length

theorem new_Inv : MemoryMap.new.Inv := by
  refine ⟨by decide, ?_, by decide⟩
  have h : ∀ n, (List.replicate n MemoryRegion.empty).Pairwise relOk := by
    intro n
    induction n with
    | zero => simp
    | succ k ih =>
      rw [List.replicate_succ]
      refine List.pairwise_cons.mpr ⟨?_, ih⟩
      intro z hz
      rw [List.eq_of_mem_replicate hz]
      decide
  exact h 32

theorem sort_entries (m : MemoryMap) :
    (MemoryMap.sort m).entries = sortCmp cmpRegion m.entries := rfl

theorem sort_next (m : MemoryMap) :
    (MemoryMap.sort m).next_entry_index =
      match firstEmptyIdx (sortCmp cmpRegion m.entries) with
      | some first_zero_index => first_zero_index
      | none => m.next_entry_index := rfl

theorem sort_perm (m : MemoryMap) :
    (MemoryMap.sort m).entries.Perm m.entries :=
  sortCmp_perm cmpRegion m.entries

/-- After `sort`, the cursor points at the count of non-empty entries,
provided it already did before, or provided some entry is empty. -/
theorem sort_Inv {m : MemoryMap}
    (hlen : m.entries.length = 32)
    (hcur : m.next_entry_index = (nonEmptyRegions m.entries).length ∨
      ∃ r ∈ m.entries, r.range.isEmpty = true) :
    (MemoryMap.sort m).Inv := by
  have hpair : (sortCmp cmpRegion m.entries).Pairwise relOk :=
    sortCmp_pairwise m.entries
  have hperm : (sortCmp cmpRegion m.entries).Perm m.entries :=
    sortCmp_perm cmpRegion m.entries
  rcases sorted_split hpair with ⟨a, b, hsplit, hna, hb⟩
  have hlen' : (MemoryMap.sort m).entries.length = 32 := by
    rw [sort_entries, hperm.length_eq, hlen]
  have hcount : (nonEmptyRegions (sortCmp cmpRegion m.entries)).length = a.length := by
    rw [hsplit, nonEmptyRegions_split hna hb]
  have hcount_eq :
      (nonEmptyRegions m.entries).length =
        (nonEmptyRegions (sortCmp cmpRegion m.entries)).length :=
    ((nonEmptyRegions_perm hperm).length_eq).symm
  refine ⟨hlen', by rw [sort_entries]; exact hpair, ?_⟩
  rw [sort_next, sort_entries, hcount]
  cases b with
  | nil =>
    have hna' : ∀ r ∈ sortCmp cmpRegion m.entries, r.range.isEmpty = false := by
      intro r hr
      rw [hsplit, List.append_nil] at hr
      exact hna r hr
    rw [firstEmptyIdx_none hna']
    show m.next_entry_index = a.length
    rcases hcur with hcur | ⟨r, hr, hre⟩
    · rw [hcur, hcount_eq, hcount]
    · exfalso
      have hmem : r ∈ sortCmp cmpRegion m.entries := hperm.mem_iff.mpr hr
      rw [hna' r hmem] at hre
      cases hre
  | cons x b' =>
    rw [hsplit, firstEmptyIdx_append b' hna (hb x (List.mem_cons_self x b'))]

theorem nonEmptyRegions_of_forall {a : List MemoryRegion}
    (h : ∀ r ∈ a, r.range.isEmpty = false) : nonEmptyRegions a = a :=
  List.filter_eq_self.mpr (fun r hr => by simp [h r hr])

theorem nonEmptyRegions_nil_of_forall {b : List MemoryRegion}
    (h : ∀ r ∈ b, r.range.isEmpty = true) : nonEmptyRegions b = [] :=
  List.filter_eq_nil_iff.mpr (fun r hr => by simp [h r hr])

/-- `add_region` preserves the invariant, and its effect on the multiset
of non-empty entries is to append the inserted region (when non-empty). -/
theorem add_region_ok_Inv {m : MemoryMap} {r : MemoryRegion} {m' : MemoryMap}
    (hm : m.Inv) (h : m.add_region r = Except.ok m') :
    m'.Inv ∧ (nonEmptyRegions m'.entries).Perm
      (nonEmptyRegions m.entries ++ nonEmptyRegions [r]) := by
  rcases hm with ⟨hlen, hpair, hcur⟩
  rcases sorted_split hpair with ⟨a, b, hsplit, hna, hb⟩
  rw [MemoryMap.add_region] at h
  by_cases hlt : m.next_entry_index < m.entries.length
  case neg => rw [if_neg hlt] at h; cases h
  rw [if_pos hlt] at h
  have hm' := (Except.ok.inj h).symm
  have hca : m.next_entry_index = a.length := by
    rw [hcur, hsplit, nonEmptyRegions_split hna hb]
  rcases b with _ | ⟨x, b'⟩
  · exfalso
    rw [hca, hsplit] at hlt
    simp at hlt
  have hb' : ∀ s ∈ b', s.range.isEmpty = true :=
    fun s hs => hb s (List.mem_cons_of_mem x hs)
  have hset : m.entries.set m.next_entry_index r = a ++ r :: b' := by
    rw [hsplit, hca, set_at_split]
  have hmidlen : (m.entries.set m.next_entry_index r).length = 32 := by
    rw [List.length_set, hlen]
  have hmid : (MemoryMap.sort
      { entries := m.entries.set m.next_entry_index r,
        next_entry_index := m.next_entry_index + 1 }).Inv := by
    apply sort_Inv
    · exact hmidlen
    · by_cases hre : r.range.isEmpty = true
      · refine Or.inr ⟨r, ?_, hre⟩
        rw [hset]
        exact List.mem_append_right a (List.mem_cons_self r b')
      · left
        have hre' : r.range.isEmpty = false := by
          cases hrv : r.range.isEmpty
          · rfl
          · exact absurd hrv hre
        show m.next_entry_index + 1 = _
        rw [hset]
        have : a ++ r :: b' = (a ++ [r]) ++ b' := by simp
        rw [this, nonEmptyRegions_split (a := a ++ [r]) ?_ hb']
        · simp [hca]
        · intro s hs
          rcases List.mem_append.mp hs with hs | hs
          · exact hna s hs
          · rw [List.mem_singleton.mp hs]
            exact hre'
  have hperm' : (nonEmptyRegions m'.entries).Perm
      (nonEmptyRegions (a ++ r :: b')) := by
    rw [hm', ← hset]
    exact nonEmptyRegions_perm (sort_perm _)
  have heq : nonEmptyRegions (a ++ r :: b') =
      nonEmptyRegions m.entries ++ nonEmptyRegions [r] := by
    rw [nonEmptyRegions, List.filter_append, ← nonEmptyRegions, ← nonEmptyRegions]
    rw [nonEmptyRegions_cons r b', nonEmptyRegions_nil_of_forall hb']
    rw [nonEmptyRegions_of_forall hna]
    rw [hsplit, nonEmptyRegions_split hna hb]
    simp
  exact ⟨hm' ▸ hmid, heq ▸ hperm'⟩

/-- Partial correctness of folding `add_region` over a list of regions:
an `ok` result satisfies the invariant, and its non-empty entries are,
up to permutation, the previous ones plus the non-empty inserted ones. -/
theorem foldAdd_Inv :
    ∀ (rs : List MemoryRegion) (m m' : MemoryMap), m.Inv →
      rs.foldlM (fun m r => m.add_region r) m = Except.ok m' →
      m'.Inv ∧ (nonEmptyRegions m'.entries).Perm
        (nonEmptyRegions m.entries ++ nonEmptyRegions rs) := by
  intro rs
  induction rs with
  | nil =>
    intro m m' hm h
    have : m = m' := Except.ok.inj h
    subst this
    exact ⟨hm, by simp [nonEmptyRegions]⟩
  | cons r rs ih =>
    intro m m' hm h
    rw [List.foldlM_cons] at h
    rcases hadd : m.add_region r with e | m1
    · rw [hadd] at h
      cases h
    · rw [hadd] at h
      have hstep := add_region_ok_Inv hm hadd
      have hrest := ih m1 m' hstep.1 h
      refine ⟨hrest.1, ?_⟩
      have : (nonEmptyRegions m1.entries ++ nonEmptyRegions rs).Perm
          ((nonEmptyRegions m.entries ++ nonEmptyRegions [r]) ++ nonEmptyRegions rs) :=
        hstep.2.append_right (nonEmptyRegions rs)
      have hgoal := hrest.2.trans this
      rw [nonEmptyRegions_cons r rs]
      simpa using hgoal

/-- With the invariant, the exposed live prefix is exactly the non-empty
entries (in sorted order), and everything at or past the cursor has an
empty range. -/
theorem Inv_live {m : MemoryMap} (hm : m.Inv) :
    m.liveRegions = nonEmptyRegions m.entries ∧
      (∀ r ∈ m.liveRegions, r.range.isEmpty = false) ∧
      (∀ r ∈ m.entries.drop m.next_entry_index, r.range.isEmpty = true) ∧
      m.liveRegions.Pairwise lexLe := by
  rcases hm with ⟨hlen, hpair, hcur⟩
  rcases sorted_split hpair with ⟨a, b, hsplit, hna, hb⟩
  have hca : m.next_entry_index = a.length := by
    rw [hcur, hsplit, nonEmptyRegions_split hna hb]
  have hlive : m.liveRegions = a := by
    rw [MemoryMap.liveRegions, hca, hsplit, List.take_left' rfl]
  have hdrop : m.entries.drop m.next_entry_index = b := by
    rw [hca, hsplit, List.drop_left]
  have hpla : a.Pairwise relOk := by
    rw [hsplit] at hpair
    exact List.Pairwise.sublist (List.sublist_append_left a b) hpair
  refine ⟨by rw [hlive, hsplit, nonEmptyRegions_split hna hb],
    by rw [hlive]; exact hna, by rw [hdrop]; exact hb, ?_⟩
  rw [hlive]
  refine hpla.imp_of_mem ?_
  intro p q hp hq hrel
  exact hrel.2 (hna q hq)

/-! ## Properties of the normalization pass -/

/-- Adjacent separation: the earlier region ends at or before the later
one starts (no overlap between them, given ordered starts). -/
def noOverlapAdj (a b : MemoryRegion) : Prop :=
  a.range.stop ≤ b.range.start

/-- Ascending start addresses. -/
def startLe (a b : MemoryRegion) : Prop :=
  a.range.start ≤ b.range.start

instance (a b : MemoryRegion) : Decidable (noOverlapAdj a b) := by
  unfold noOverlapAdj; exact inferInstance

instance (a b : MemoryRegion) : Decidable (startLe a b) := by
  unfold startLe; exact inferInstance

/-- The normalization pass never changes start addresses (it only
truncates end addresses). -/
theorem norm_starts : ∀ (l l' : List MemoryRegion),
    normalizePass l = Except.ok l' →
    l'.map (fun r => r.range.start) = l.map (fun r => r.range.start) := by
  intro l
  induction l with
  | nil =>
    intro l' h
    rw [normalizePass] at h
    rw [← Except.ok.inj h]
  | cons r t ih =>
    intro l' h
    cases t with
    | nil =>
      rw [normalizePass] at h
      rw [← Except.ok.inj h]
    | cons next rest =>
      rw [normalizePass] at h
      by_cases hov : next.range.start < r.range.stop
      · rw [if_pos hov] at h
        by_cases hu : r.region_type = MemoryRegionType.Usable
        · rw [if_pos hu] at h
          rcases hrec : normalizePass (next :: rest) with e | tail
          · rw [hrec] at h; cases h
          · rw [hrec] at h
            have hl' := Except.ok.inj h
            rw [← hl']
            simp only [List.map_cons]
            rw [ih tail hrec]
            rfl
        · rw [if_neg hu] at h; cases h
      · rw [if_neg hov] at h
        rcases hrec : normalizePass (next :: rest) with e | tail
        · rw [hrec] at h; cases h
        · rw [hrec] at h
          have hl' := Except.ok.inj h
          rw [← hl']
          simp only [List.map_cons]
          rw [ih tail hrec]
          rfl

/-- After a successful pass, adjacent regions no longer overhang: each
region ends at or before the next one starts. -/
theorem norm_chain : ∀ (l l' : List MemoryRegion),
    normalizePass l = Except.ok l' → l'.Chain' noOverlapAdj := by
  intro l
  induction l with
  | nil =>
    intro l' h
    rw [normalizePass] at h
    rw [← Except.ok.inj h]
    exact List.chain'_nil
  | cons r t ih =>
    intro l' h
    cases t with
    | nil =>
      rw [normalizePass] at h
      rw [← Except.ok.inj h]
      exact List.chain'_singleton r
    | cons next rest =>
      rw [normalizePass] at h
      have step : ∀ (r' : MemoryRegion) (tail : List MemoryRegion),
          normalizePass (next :: rest) = Except.ok tail →
          r'.range.stop ≤ next.range.start → (r' :: tail).Chain' noOverlapAdj := by
        intro r' tail hrec hle
        have hmap := norm_starts (next :: rest) tail hrec
        cases tail with
        | nil => simp at hmap
        | cons t0 ts =>
          simp only [List.map_cons, List.cons.injEq] at hmap
          refine List.chain'_cons.mpr ⟨?_, ih (t0 :: ts) hrec⟩
          show r'.range.stop ≤ t0.range.start
          rw [hmap.1]
          exact hle
      by_cases hov : next.range.start < r.range.stop
      · rw [if_pos hov] at h
        by_cases hu : r.region_type = MemoryRegionType.Usable
        · rw [if_pos hu] at h
          rcases hrec : normalizePass (next :: rest) with e | tail
          · rw [hrec] at h; cases h
          · rw [hrec] at h
            have hl' := Except.ok.inj h
            rw [← hl']
            exact step _ tail hrec (Nat.le_refl _)
        · rw [if_neg hu] at h; cases h
      · rw [if_neg hov] at h
        rcases hrec : normalizePass (next :: rest) with e | tail
        · rw [hrec] at h; cases h
        · rw [hrec] at h
          have hl' := Except.ok.inj h
          rw [← hl']
          exact step r tail hrec (Nat.not_lt.mp hov)

/-- On a sequence with no adjacent overhang the pass is the identity. -/
theorem norm_id : ∀ (l : List MemoryRegion),
    l.Chain' noOverlapAdj → normalizePass l = Except.ok l := by
  intro l
  induction l with
  | nil => intro _; rfl
  | cons r t ih =>
    intro h
    cases t with
    | nil => rfl
    | cons next rest =>
      rcases List.chain'_cons.mp h with ⟨hle, htail⟩
      rw [normalizePass, if_neg (Nat.not_lt.mpr hle), ih htail]
      rfl

/-- The pass keeps every region's start at or below its end, provided
the input has ascending starts and well-formed regions. -/
theorem norm_bounds : ∀ (l l' : List MemoryRegion),
    l.Chain' startLe → (∀ r ∈ l, r.range.start ≤ r.range.stop) →
    normalizePass l = Except.ok l' →
    ∀ r ∈ l', r.range.start ≤ r.range.stop := by
  intro l
  induction l with
  | nil =>
    intro l' _ _ h
    rw [normalizePass] at h
    rw [← Except.ok.inj h]
    simp
  | cons r t ih =>
    intro l' hchain hwf h
    cases t with
    | nil =>
      rw [normalizePass] at h
      rw [← Except.ok.inj h]
      simpa using hwf
    | cons next rest =>
      rcases List.chain'_cons.mp hchain with ⟨hs, htail⟩
      have hwf' : ∀ s ∈ next :: rest, s.range.start ≤ s.range.stop :=
        fun s hs' => hwf s (List.mem_cons_of_mem r hs')
      rw [normalizePass] at h
      by_cases hov : next.range.start < r.range.stop
      · rw [if_pos hov] at h
        by_cases hu : r.region_type = MemoryRegionType.Usable
        · rw [if_pos hu] at h
          rcases hrec : normalizePass (next :: rest) with e | tail
          · rw [hrec] at h; cases h
          · rw [hrec] at h
            have hl' := Except.ok.inj h
            rw [← hl']
            intro s hsmem
            rcases List.mem_cons.mp hsmem with rfl | hsmem
            · exact hs
            · exact ih tail htail hwf' hrec s hsmem
        · rw [if_neg hu] at h; cases h
      · rw [if_neg hov] at h
        rcases hrec : normalizePass (next :: rest) with e | tail
        · rw [hrec] at h; cases h
        · rw [hrec] at h
          have hl' := Except.ok.inj h
          rw [← hl']
          intro s hsmem
          rcases List.mem_cons.mp hsmem with rfl | hsmem
          · exact hwf s (List.mem_cons_self s _)
          · exact ih tail htail hwf' hrec s hsmem

/-- The head of an adjacent-separation chain ends before every later
region starts (uses that intermediate regions are well-formed). -/
theorem head_sep : ∀ (t : List MemoryRegion) (r : MemoryRegion),
    (r :: t).Chain' noOverlapAdj →
    (∀ s ∈ t, s.range.start ≤ s.range.stop) →
    ∀ s ∈ t, noOverlapAdj r s := by
  intro t
  induction t with
  | nil => intro r _ _ s hs; cases hs
  | cons y ys ih =>
    intro r hchain hwf s hs
    rcases List.chain'_cons.mp hchain with ⟨hry, hys⟩
    rcases List.mem_cons.mp hs with rfl | hs'
    · exact hry
    · have hy : y.range.start ≤ y.range.stop :=
        hwf y (List.mem_cons_self y ys)
      have hrest := ih y hys
        (fun q hq => hwf q (List.mem_cons_of_mem y hq)) s hs'
      exact Nat.le_trans hry (Nat.le_trans hy hrest)

/-- Adjacent separation plus well-formed regions yields full pairwise
separation (any earlier region ends before any later one starts). -/
theorem chain_to_pairwise : ∀ (l : List MemoryRegion),
    l.Chain' noOverlapAdj → (∀ r ∈ l, r.range.start ≤ r.range.stop) →
    l.Pairwise noOverlapAdj := by
  intro l
  induction l with
  | nil => intro _ _; exact List.Pairwise.nil
  | cons r t ih =>
    intro hchain hwf
    have hwf' : ∀ s ∈ t, s.range.start ≤ s.range.stop :=
      fun s hs => hwf s (List.mem_cons_of_mem r hs)
    have htail : t.Chain' noOverlapAdj := hchain.tail
    exact List.pairwise_cons.mpr ⟨head_sep t r hchain hwf', ih htail hwf'⟩

/-! ## Characterizing when the pass signals an unresolved overlap -/

/-- Some region whose type is not `Usable` overhangs its immediate
successor in the sequence. -/
def hasFatalAdj (l : List MemoryRegion) : Prop :=
  ∃ (p s : List MemoryRegion) (a b : MemoryRegion),
    l = p ++ a :: b :: s ∧
      a.region_type ≠ MemoryRegionType.Usable ∧
      b.range.start < a.range.stop

/-- Two regions at distinct positions, neither of type `Usable`, whose
half-open frame ranges intersect. -/
def twoNonUsableOverlap (l : List MemoryRegion) : Prop :=
  ∃ i j : Fin l.length, i ≠ j ∧
    (l.get i).region_type ≠ MemoryRegionType.Usable ∧
    (l.get j).region_type ≠ MemoryRegionType.Usable ∧
    (l.get j).range.start < (l.get i).range.stop ∧
    (l.get i).range.start < (l.get j).range.stop

instance (l : List MemoryRegion) : Decidable (twoNonUsableOverlap l) := by
  unfold twoNonUsableOverlap; exact inferInstance

theorem hasFatalAdj_cons (x : MemoryRegion) (l : List MemoryRegion) :
    hasFatalAdj (x :: l) ↔
      (∃ (b : MemoryRegion) (s : List MemoryRegion), l = b :: s ∧
        x.region_type ≠ MemoryRegionType.Usable ∧
        b.range.start < x.range.stop) ∨ hasFatalAdj l := by
  constructor
  · rintro ⟨p, s, a, b, heq, hna, hov⟩
    cases p with
    | nil =>
      rw [List.nil_append] at heq
      simp only [List.cons.injEq] at heq
      rcases heq with ⟨rfl, hl⟩
      exact Or.inl ⟨b, s, hl, hna, hov⟩
    | cons y p' =>
      rw [List.cons_append] at heq
      simp only [List.cons.injEq] at heq
      exact Or.inr ⟨p', s, a, b, heq.2, hna, hov⟩
  · rintro (⟨b, s, hl, hna, hov⟩ | ⟨p, s, a, b, hl, hna, hov⟩)
    · exact ⟨[], s, x, b, by rw [hl]; rfl, hna, hov⟩
    · exact ⟨x :: p, s, a, b, by rw [hl, List.cons_append], hna, hov⟩

/-- The pass signals `unresolvedOverlap` exactly when some non-usable
region overhangs its immediate successor; moreover the only error the
pass produces is `unresolvedOverlap`. -/
theorem norm_error_iff : ∀ (l : List MemoryRegion),
    (∃ a b, normalizePass l =
      Except.error (BootError.unresolvedOverlap a b)) ↔ hasFatalAdj l := by
  intro l
  induction l with
  | nil =>
    constructor
    · rintro ⟨a, b, h⟩
      rw [normalizePass] at h
      cases h
    · rintro ⟨p, s, a, b, heq, -, -⟩
      have := congrArg List.length heq
      simp at this
      omega
  | cons r t ih =>
    cases t with
    | nil =>
      constructor
      · rintro ⟨a, b, h⟩
        rw [normalizePass] at h
        cases h
      · rintro ⟨p, s, a, b, heq, -, -⟩
        have := congrArg List.length heq
        simp at this
        omega
    | cons next rest =>
      rw [normalizePass, hasFatalAdj_cons]
      by_cases hov : next.range.start < r.range.stop
      · rw [if_pos hov]
        by_cases hu : r.region_type = MemoryRegionType.Usable
        · rw [if_pos hu]
          constructor
          · rintro ⟨a, b, h⟩
            rcases hrec : normalizePass (next :: rest) with e | tail
            · rw [hrec] at h
              refine Or.inr (ih.mp ⟨a, b, ?_⟩)
              rw [hrec]
              exact Except.error.inj h ▸ rfl
            · rw [hrec] at h
              cases h
          · rintro (⟨b, s, hl, hna, -⟩ | hfat)
            · exact absurd hu hna
            · rcases ih.mpr hfat with ⟨a, b, hrec⟩
              rw [hrec]
              exact ⟨a, b, rfl⟩
        · rw [if_neg hu]
          constructor
          · intro _
            exact Or.inl ⟨next, rest, rfl, hu, hov⟩
          · intro _
            exact ⟨r, next, rfl⟩
      · rw [if_neg hov]
        constructor
        · rintro ⟨a, b, h⟩
          rcases hrec : normalizePass (next :: rest) with e | tail
          · rw [hrec] at h
            refine Or.inr (ih.mp ⟨a, b, ?_⟩)
            rw [hrec]
            exact Except.error.inj h ▸ rfl
          · rw [hrec] at h
            cases h
        · rintro (⟨b, s, hl, hna, hov'⟩ | hfat)
          · simp only [List.cons.injEq] at hl
            rw [← hl.1] at hov'
            exact absurd hov' hov
          · rcases ih.mpr hfat with ⟨a, b, hrec⟩
            rw [hrec]
            exact ⟨a, b, rfl⟩

theorem split_at_adjacent : ∀ (l : List MemoryRegion) (i : Nat)
    (h : i + 1 < l.length),
    ∃ p s, l = p ++ l.get ⟨i, Nat.lt_of_succ_lt h⟩ :: l.get ⟨i + 1, h⟩ :: s := by
  intro l
  induction l with
  | nil => intro i h; simp at h
  | cons x t ih =>
    intro i h
    cases i with
    | zero =>
      cases t with
      | nil => simp at h
      | cons y ys => exact ⟨[], ys, rfl⟩
    | succ j =>
      have h' : j + 1 < t.length := by
        simp only [List.length_cons] at h
        omega
      rcases ih j h' with ⟨p, s, heq⟩
      exact ⟨x :: p, s, congrArg (List.cons x) heq⟩

/-- In a sequence with ascending starts, any two overlapping non-usable
regions produce a non-usable region overhanging its immediate successor
(the situation the pass detects). -/
theorem sorted_two_overlap_fatal : ∀ (l : List MemoryRegion),
    l.Pairwise startLe → twoNonUsableOverlap l → hasFatalAdj l := by
  intro l hsort h2
  rcases h2 with ⟨i, j, hne, hi, hj, hov1, hov2⟩
  have main : ∀ i j : Fin l.length, i.val < j.val →
      (l.get i).region_type ≠ MemoryRegionType.Usable →
      (l.get j).range.start < (l.get i).range.stop → hasFatalAdj l := by
    intro i j hij hi hov
    have hj1 : i.val + 1 < l.length :=
      Nat.lt_of_le_of_lt (Nat.succ_le_of_lt hij) j.isLt
    rcases split_at_adjacent l i.val hj1 with ⟨p, s, heq⟩
    refine ⟨p, s, _, _, heq, hi, ?_⟩
    have hle : (l.get ⟨i.val + 1, hj1⟩).range.start ≤ (l.get j).range.start := by
      rcases Nat.lt_or_ge (i.val + 1) j.val with hlt | hge
      · exact List.pairwise_iff_get.mp hsort ⟨i.val + 1, hj1⟩ j hlt
      · have : i.val + 1 = j.val := Nat.le_antisymm (Nat.succ_le_of_lt hij) hge
        have : (⟨i.val + 1, hj1⟩ : Fin l.length) = j := Fin.ext this
        rw [this]
    exact Nat.lt_of_le_of_lt hle hov
  have hvne : i.val ≠ j.val := fun hv => hne (Fin.ext hv)
  rcases Nat.lt_or_ge i.val j.val with hlt | hge
  · exact main i j hlt hi hov1
  · exact main j i (Nat.lt_of_le_of_ne hge (Ne.symm hvne)) hj hov2

/-! ## Unpacking `create_from` -/

theorem norm_length {l l' : List MemoryRegion}
    (h : normalizePass l = Except.ok l') : l'.length = l.length := by
  have := congrArg List.length (norm_starts l l' h)
  simpa using this

theorem foldConv_Inv : ∀ (es : List E820MemoryRegion) (m m' : MemoryMap),
    m.Inv →
    es.foldlM (fun m region => (memoryRegionFromE820 region).bind m.add_region)
      m = Except.ok m' → m'.Inv := by
  intro es
  induction es with
  | nil =>
    intro m m' hm h
    have : m = m' := Except.ok.inj h
    subst this
    exact hm
  | cons e es ih =>
    intro m m' hm h
    rw [List.foldlM_cons] at h
    rcases hconv : memoryRegionFromE820 e with er | r
    · rw [hconv] at h
      cases h
    · rw [hconv] at h
      have hred : (Except.ok r).bind m.add_region = m.add_region r := rfl
      rw [hred] at h
      rcases hadd : m.add_region r with er | m1
      · rw [hadd] at h
        cases h
      · rw [hadd] at h
        exact ih m1 m' (add_region_ok_Inv hm hadd).1 h

theorem create_from_eq (es : List E820MemoryRegion) :
    create_from es =
      match es.foldlM
          (fun m region => (memoryRegionFromE820 region).bind m.add_region)
          MemoryMap.new with
      | Except.error e => Except.error e
      | Except.ok memory_map =>
        match normalizePass (MemoryMap.sort memory_map).liveRegions with
        | Except.error e => Except.error e
        | Except.ok live =>
          Except.ok
            { entries := live ++ (MemoryMap.sort memory_map).entries.drop
                (MemoryMap.sort memory_map).next_entry_index,
              next_entry_index := (MemoryMap.sort memory_map).next_entry_index } := rfl

/-- Successful `create_from` runs decompose into a sorted, invariant-
satisfying map whose live prefix the normalization pass rewrote. -/
theorem create_from_ok_unpack {es : List E820MemoryRegion} {m : MemoryMap}
    (h : create_from es = Except.ok m) :
    ∃ (m0 : MemoryMap) (live : List MemoryRegion), m0.Inv ∧
      normalizePass m0.liveRegions = Except.ok live ∧
      m.liveRegions = live := by
  rw [create_from_eq] at h
  split at h
  · cases h
  · split at h
    · cases h
    · rename_i m1 hfold scrut2 live hnorm
      have hInv : (MemoryMap.sort m1).Inv := by
        have h1 : m1.Inv := foldConv_Inv es MemoryMap.new m1 new_Inv hfold
        exact sort_Inv h1.1 (Or.inl h1.2.2)
      refine ⟨MemoryMap.sort m1, live, hInv, hnorm, ?_⟩
      have hm := Except.ok.inj h
      have hlive0 : (MemoryMap.sort m1).liveRegions.length =
          (MemoryMap.sort m1).next_entry_index := by
        rw [MemoryMap.liveRegions, List.length_take]
        have hle : (MemoryMap.sort m1).next_entry_index ≤ 32 := by
          rw [hInv.2.2]
          calc (nonEmptyRegions (MemoryMap.sort m1).entries).length
              ≤ (MemoryMap.sort m1).entries.length := List.length_filter_le _ _
            _ = 32 := hInv.1
        rw [hInv.1]
        omega
      have hlen : live.length = (MemoryMap.sort m1).next_entry_index := by
        rw [norm_length hnorm, hlive0]
      rw [← hm]
      show (live ++ _).take _ = live
      rw [← hlen, List.take_left' rfl]

/-! ## Consequences of a successful `create_from` -/

theorem create_from_ok_props {es : List E820MemoryRegion} {m : MemoryMap}
    (h : create_from es = Except.ok m) :
    m.liveRegions.Pairwise noOverlapAdj ∧
      (∀ r ∈ m.liveRegions, r.range.start ≤ r.range.stop) := by
  rcases create_from_ok_unpack h with ⟨m0, live, hInv, hnorm, hlive⟩
  rcases Inv_live hInv with ⟨-, hne, -, hplex⟩
  have hwf0 : ∀ r ∈ m0.liveRegions, r.range.start ≤ r.range.stop := by
    intro r hr
    exact Nat.le_of_lt (frameRange_isEmpty_eq_false.mp (hne r hr))
  have hstart : m0.liveRegions.Chain' startLe := by
    refine List.Pairwise.chain' (hplex.imp ?_)
    intro a b hab
    rcases hab with hlt | ⟨heq', -⟩
    · exact Nat.le_of_lt hlt
    · exact Nat.le_of_eq heq'
  have hch := norm_chain m0.liveRegions live hnorm
  have hwf := norm_bounds m0.liveRegions live hstart hwf0 hnorm
  rw [hlive]
  exact ⟨chain_to_pairwise live hch hwf, hwf⟩

/-! ## Claim theorems -/

/-- C1 (counterexample): the "exactly when two non-usable regions occupy
overlapping ranges" characterization is false: for Reserved [0,10) and
Usable [5,15) the pass signals `UnresolvedOverlap` even though only one
of the two overlapping regions is non-usable (the sorted sequence
contains no two overlapping non-usable regions). -/
theorem C1_counterexample :
    create_from [⟨0, 40960, 2, 0⟩, ⟨20480, 40960, 1, 0⟩] =
      Except.error (BootError.unresolvedOverlap
        ⟨⟨0, 10⟩, MemoryRegionType.Reserved⟩
        ⟨⟨5, 15⟩, MemoryRegionType.Usable⟩) ∧
    ¬ twoNonUsableOverlap
      [⟨⟨0, 10⟩, MemoryRegionType.Reserved⟩,
       ⟨⟨5, 15⟩, MemoryRegionType.Usable⟩] := by
  constructor
  · decide
  · decide

/-- C1 (amended): during normalization, a fatal `UnresolvedOverlap` is
signaled exactly when some region whose type is not `Usable` overlaps its
immediate successor in the sequence (the successor may have any type).
Two overlapping non-usable regions in a start-sorted sequence always
produce such an adjacent pair, and in particular the input
Reserved [0,10), AcpiNvs [5,15) signals `UnresolvedOverlap`. -/
theorem C1_unresolvedOverlap_characterization :
    (∀ l : List MemoryRegion,
      (∃ a b, normalizePass l =
        Except.error (BootError.unresolvedOverlap a b)) ↔ hasFatalAdj l) ∧
    (∀ l : List MemoryRegion, l.Pairwise startLe →
      twoNonUsableOverlap l → hasFatalAdj l) ∧
    create_from [⟨0, 40960, 2, 0⟩, ⟨20480, 40960, 4, 0⟩] =
      Except.error (BootError.unresolvedOverlap
        ⟨⟨0, 10⟩, MemoryRegionType.Reserved⟩
        ⟨⟨5, 15⟩, MemoryRegionType.AcpiNvs⟩) :=
  ⟨norm_error_iff, sorted_two_overlap_fatal, by decide⟩

theorem C1_witness :
    hasFatalAdj [⟨⟨0, 10⟩, MemoryRegionType.Reserved⟩,
      ⟨⟨5, 15⟩, MemoryRegionType.AcpiNvs⟩] :=
  C1_unresolvedOverlap_characterization.2.1
    [⟨⟨0, 10⟩, MemoryRegionType.Reserved⟩,
     ⟨⟨5, 15⟩, MemoryRegionType.AcpiNvs⟩]
    (by decide) (by decide)

/-- C2 (counterexample): after inserting Usable [0,10) twice and the
zero-length Reserved [5,5), the live prefix holds two equal regions (so
it is not strictly ordered by `(start, end)`), and the slot area past the
cursor holds the zero-length Reserved region, which is not the empty
sentinel. -/
theorem C2_counterexample :
    addAll [⟨⟨0, 10⟩, MemoryRegionType.Usable⟩,
        ⟨⟨0, 10⟩, MemoryRegionType.Usable⟩,
        ⟨⟨5, 5⟩, MemoryRegionType.Reserved⟩] =
      Except.ok ⟨[⟨⟨0, 10⟩, MemoryRegionType.Usable⟩,
        ⟨⟨0, 10⟩, MemoryRegionType.Usable⟩] ++
        List.replicate 29 MemoryRegion.empty ++
        [⟨⟨5, 5⟩, MemoryRegionType.Reserved⟩], 2⟩ ∧
    ¬ (⟨[⟨⟨0, 10⟩, MemoryRegionType.Usable⟩,
        ⟨⟨0, 10⟩, MemoryRegionType.Usable⟩] ++
        List.replicate 29 MemoryRegion.empty ++
        [⟨⟨5, 5⟩, MemoryRegionType.Reserved⟩], 2⟩ : MemoryMap).liveRegions.Pairwise lexLt ∧
    ¬ (∀ r ∈ (⟨[⟨⟨0, 10⟩, MemoryRegionType.Usable⟩,
        ⟨⟨0, 10⟩, MemoryRegionType.Usable⟩] ++
        List.replicate 29 MemoryRegion.empty ++
        [⟨⟨5, 5⟩, MemoryRegionType.Reserved⟩], 2⟩ : MemoryMap).entries.drop 2,
      r = MemoryRegion.empty) := by
  refine ⟨by decide, by decide, by decide⟩

/-- C2 (amended): for every sequence of at most 32 `add_region`
insertions, the live prefix is ordered by `(start, end)` ascending
(non-strictly: duplicate insertions yield equal adjacent entries), every
live entry has a non-empty range, and every slot at or past the cursor
has an empty range (though not necessarily the sentinel value). -/
theorem C2_sort_invariant :
    ∀ (rs : List MemoryRegion) (m : MemoryMap), rs.length ≤ 32 →
      addAll rs = Except.ok m →
      m.liveRegions.Pairwise lexLe ∧
        (∀ r ∈ m.liveRegions, r.range.isEmpty = false) ∧
        (∀ r ∈ m.entries.drop m.next_entry_index, r.range.isEmpty = true) := by
  intro rs m _ h
  have hfold := foldAdd_Inv rs MemoryMap.new m new_Inv h
  rcases Inv_live hfold.1 with ⟨-, h2, h3, h4⟩
  exact ⟨h4, h2, h3⟩

theorem C2_witness :
    (⟨[⟨⟨0, 10⟩, MemoryRegionType.Usable⟩] ++
        List.replicate 31 MemoryRegion.empty, 1⟩ : MemoryMap).liveRegions.Pairwise lexLe ∧
      (∀ r ∈ (⟨[⟨⟨0, 10⟩, MemoryRegionType.Usable⟩] ++
        List.replicate 31 MemoryRegion.empty, 1⟩ : MemoryMap).liveRegions,
        r.range.isEmpty = false) ∧
      (∀ r ∈ (⟨[⟨⟨0, 10⟩, MemoryRegionType.Usable⟩] ++
        List.replicate 31 MemoryRegion.empty, 1⟩ : MemoryMap).entries.drop
          (⟨[⟨⟨0, 10⟩, MemoryRegionType.Usable⟩] ++
            List.replicate 31 MemoryRegion.empty, 1⟩ : MemoryMap).next_entry_index,
        r.range.isEmpty = true) :=
  C2_sort_invariant [⟨⟨0, 10⟩, MemoryRegionType.Usable⟩]
    ⟨[⟨⟨0, 10⟩, MemoryRegionType.Usable⟩] ++
      List.replicate 31 MemoryRegion.empty, 1⟩ (by decide) (by decide)

/-- C3: a 33rd insertion (cursor already at 32 with all 32 slots live)
hits the out-of-bounds write, a fatal condition; no entry is overwritten
and the cursor does not wrap. -/
theorem C3_capacity :
    ∀ (m : MemoryMap) (region : MemoryRegion), m.entries.length = 32 →
      m.next_entry_index = 32 →
      m.add_region region = Except.error BootError.indexOutOfBounds := by
  intro m region hlen hcur
  rw [MemoryMap.add_region, hlen, hcur]
  simp

theorem C3_witness :
    (⟨(List.range 32).map (fun i => ⟨⟨i, i + 1⟩, MemoryRegionType.Usable⟩),
        32⟩ : MemoryMap).add_region ⟨⟨100, 101⟩, MemoryRegionType.Usable⟩ =
      Except.error BootError.indexOutOfBounds :=
  C3_capacity
    ⟨(List.range 32).map (fun i => ⟨⟨i, i + 1⟩, MemoryRegionType.Usable⟩), 32⟩
    ⟨⟨100, 101⟩, MemoryRegionType.Usable⟩ (by decide) rfl

/-- C4: when the earlier region overhangs its successor and is `Usable`,
its end is truncated to the successor's start and the successor proceeds
unchanged into the rest of the pass; in particular Usable [0,10) and
Reserved [8,20) become Usable [0,8) and Reserved [8,20). -/
theorem C4_usable_truncation :
    (∀ (region next : MemoryRegion) (rest : List MemoryRegion),
      next.range.start < region.range.stop →
      region.region_type = MemoryRegionType.Usable →
      normalizePass (region :: next :: rest) =
        Except.map
          (fun tail =>
            { region with
              range := { region.range with stop := next.range.start } } :: tail)
          (normalizePass (next :: rest))) ∧
    create_from [⟨0, 40960, 1, 0⟩, ⟨32768, 49152, 2, 0⟩] =
      Except.ok ⟨[⟨⟨0, 8⟩, MemoryRegionType.Usable⟩,
        ⟨⟨8, 20⟩, MemoryRegionType.Reserved⟩] ++
        List.replicate 30 MemoryRegion.empty, 2⟩ := by
  constructor
  · intro region next rest hov hu
    rw [normalizePass, if_pos hov, if_pos hu]
  · decide

theorem C4_witness :
    normalizePass [⟨⟨0, 10⟩, MemoryRegionType.Usable⟩,
        ⟨⟨8, 20⟩, MemoryRegionType.Reserved⟩] =
      Except.map
        (fun tail =>
          { (⟨⟨0, 10⟩, MemoryRegionType.Usable⟩ : MemoryRegion) with
            range := { (⟨⟨0, 10⟩, MemoryRegionType.Usable⟩ : MemoryRegion).range with
              stop := (⟨⟨8, 20⟩, MemoryRegionType.Reserved⟩ : MemoryRegion).range.start } } :: tail)
        (normalizePass [⟨⟨8, 20⟩, MemoryRegionType.Reserved⟩]) :=
  C4_usable_truncation.1 ⟨⟨0, 10⟩, MemoryRegionType.Usable⟩
    ⟨⟨8, 20⟩, MemoryRegionType.Reserved⟩ [] (by decide) rfl

theorem memoryRegionTypeOfCode_inv :
    ∀ (t : Nat) (ty : MemoryRegionType),
      memoryRegionTypeOfCode t = Except.ok ty →
      (t = 1 ∧ ty = MemoryRegionType.Usable) ∨
      (t = 2 ∧ ty = MemoryRegionType.Reserved) ∨
      (t = 3 ∧ ty = MemoryRegionType.AcpiReclaimable) ∨
      (t = 4 ∧ ty = MemoryRegionType.AcpiNvs) ∨
      (t = 5 ∧ ty = MemoryRegionType.BadMemory) := by
  intro t ty h
  match t with
  | 0 => cases h
  | 1 => exact Or.inl ⟨rfl, (Except.ok.inj h).symm⟩
  | 2 => exact Or.inr (Or.inl ⟨rfl, (Except.ok.inj h).symm⟩)
  | 3 => exact Or.inr (Or.inr (Or.inl ⟨rfl, (Except.ok.inj h).symm⟩))
  | 4 => exact Or.inr (Or.inr (Or.inr (Or.inl ⟨rfl, (Except.ok.inj h).symm⟩)))
  | 5 => exact Or.inr (Or.inr (Or.inr (Or.inr ⟨rfl, (Except.ok.inj h).symm⟩)))
  | n + 6 => cases h

/-- C5: type codes 1-5 classify one-to-one onto Usable, Reserved,
AcpiReclaimable, AcpiNvs, BadMemory; any other code is fatal
(`UnknownRegionType`), signaled by the conversion itself before the
descriptor could reach the map, as the `create_from` run on a type-9
descriptor shows. -/
theorem C5_type_codes :
    memoryRegionTypeOfCode 1 = Except.ok MemoryRegionType.Usable ∧
    memoryRegionTypeOfCode 2 = Except.ok MemoryRegionType.Reserved ∧
    memoryRegionTypeOfCode 3 = Except.ok MemoryRegionType.AcpiReclaimable ∧
    memoryRegionTypeOfCode 4 = Except.ok MemoryRegionType.AcpiNvs ∧
    memoryRegionTypeOfCode 5 = Except.ok MemoryRegionType.BadMemory ∧
    (∀ t : Nat, ¬(1 ≤ t ∧ t ≤ 5) →
      memoryRegionTypeOfCode t =
        Except.error (BootError.unknownRegionType t)) ∧
    (∀ (t1 t2 : Nat) (ty : MemoryRegionType),
      memoryRegionTypeOfCode t1 = Except.ok ty →
      memoryRegionTypeOfCode t2 = Except.ok ty → t1 = t2) ∧
    (∀ raw : E820MemoryRegion,
      memoryRegionTypeOfCode raw.region_type =
        Except.error (BootError.unknownRegionType raw.region_type) →
      memoryRegionFromE820 raw =
        Except.error (BootError.unknownRegionType raw.region_type)) ∧
    create_from [⟨0, 4096, 9, 0⟩] =
      Except.error (BootError.unknownRegionType 9) := by
  refine ⟨rfl, rfl, rfl, rfl, rfl, ?_, ?_, ?_, by decide⟩
  · intro t ht
    match t with
    | 0 => rfl
    | 1 => exact absurd (by omega) ht
    | 2 => exact absurd (by omega) ht
    | 3 => exact absurd (by omega) ht
    | 4 => exact absurd (by omega) ht
    | 5 => exact absurd (by omega) ht
    | n + 6 => rfl
  · intro t1 t2 ty h1 h2
    rcases memoryRegionTypeOfCode_inv t1 ty h1 with
      ⟨rfl, rfl⟩ | ⟨rfl, rfl⟩ | ⟨rfl, rfl⟩ | ⟨rfl, rfl⟩ | ⟨rfl, rfl⟩ <;>
      rcases memoryRegionTypeOfCode_inv t2 _ h2 with
        ⟨rfl, hc⟩ | ⟨rfl, hc⟩ | ⟨rfl, hc⟩ | ⟨rfl, hc⟩ | ⟨rfl, hc⟩ <;>
      simp_all
  · intro raw h
    rw [memoryRegionFromE820, h]

theorem C5_witness :
    memoryRegionTypeOfCode 9 = Except.error (BootError.unknownRegionType 9) ∧
    memoryRegionFromE820 ⟨0, 4096, 9, 0⟩ =
      Except.error (BootError.unknownRegionType 9) ∧
    1 = 1 :=
  ⟨C5_type_codes.2.2.2.2.2.1 9 (by omega),
   C5_type_codes.2.2.2.2.2.2.2.1 ⟨0, 4096, 9, 0⟩ (by decide),
   C5_type_codes.2.2.2.2.2.2.1 1 1 MemoryRegionType.Usable (by decide) (by decide)⟩

/-- C6: whenever `create_from` returns normally, the exposed live
sequence is ordered by `(start, end)` ascending and pairwise disjoint
as half-open frame ranges. -/
theorem C6_sorted_nonoverlapping :
    ∀ (e820_memory_map : List E820MemoryRegion) (m : MemoryMap),
      create_from e820_memory_map = Except.ok m →
      m.liveRegions.Pairwise lexLe ∧ m.liveRegions.Pairwise disjointR := by
  intro es m h
  rcases create_from_ok_props h with ⟨hpw, hwf⟩
  constructor
  · refine hpw.imp_of_mem ?_
    intro a b ha hb hab
    have hwa := hwf a ha
    have hwb := hwf b hb
    unfold noOverlapAdj at hab
    unfold lexLe
    omega
  · exact hpw.imp (fun hab => Or.inl hab)

theorem C6_witness :
    (⟨[⟨⟨0, 1⟩, MemoryRegionType.Usable⟩, ⟨⟨1, 3⟩, MemoryRegionType.Reserved⟩,
        ⟨⟨3, 4⟩, MemoryRegionType.Usable⟩] ++
        List.replicate 29 MemoryRegion.empty, 3⟩ : MemoryMap).liveRegions.Pairwise lexLe ∧
      (⟨[⟨⟨0, 1⟩, MemoryRegionType.Usable⟩, ⟨⟨1, 3⟩, MemoryRegionType.Reserved⟩,
        ⟨⟨3, 4⟩, MemoryRegionType.Usable⟩] ++
        List.replicate 29 MemoryRegion.empty, 3⟩ : MemoryMap).liveRegions.Pairwise disjointR :=
  C6_sorted_nonoverlapping
    [⟨0, 0x1000, 1, 0⟩, ⟨0x1000, 0x2000, 2, 0⟩, ⟨0x3000, 0x1000, 1, 0⟩]
    ⟨[⟨⟨0, 1⟩, MemoryRegionType.Usable⟩, ⟨⟨1, 3⟩, MemoryRegionType.Reserved⟩,
      ⟨⟨3, 4⟩, MemoryRegionType.Usable⟩] ++
      List.replicate 29 MemoryRegion.empty, 3⟩ (by decide)

/-- C7: a successfully converted raw descriptor gets the frame range
from the frame containing `start_addr` (floor) to the frame containing
`start_addr + len` (floor, not ceiling), so a trailing partial frame is
dropped. -/
theorem C7_floor_conversion :
    ∀ (raw : E820MemoryRegion) (r : MemoryRegion),
      raw.start_addr + raw.len < 2 ^ 64 →
      memoryRegionFromE820 raw = Except.ok r →
      r.range.start = raw.start_addr / 4096 ∧
        r.range.stop = (raw.start_addr + raw.len) / 4096 := by
  intro raw r hsum h
  rw [memoryRegionFromE820, Nat.mod_eq_of_lt hsum] at h
  split at h
  · cases h
  · split at h
    · rename_i s e hs he
      have hs' : s = raw.start_addr := by
        rw [physAddrNew] at hs
        split at hs
        · exact (Except.ok.inj hs).symm
        · cases hs
      have he' : e = raw.start_addr + raw.len := by
        rw [physAddrNew] at he
        split at he
        · exact (Except.ok.inj he).symm
        · cases he
      have hr := Except.ok.inj h
      rw [← hr]
      exact ⟨by rw [hs']; rfl, by rw [he']; rfl⟩
    · cases h
    · cases h

theorem C7_witness :
    (⟨⟨1, 3⟩, MemoryRegionType.Usable⟩ : MemoryRegion).range.start = 4097 / 4096 ∧
      (⟨⟨1, 3⟩, MemoryRegionType.Usable⟩ : MemoryRegion).range.stop =
        (4097 + 8191) / 4096 :=
  C7_floor_conversion ⟨4097, 8191, 1, 0⟩ ⟨⟨1, 3⟩, MemoryRegionType.Usable⟩
    (by decide) (by decide)

/-- C8 (counterexample): inserting Usable [0,10) and Reserved [0,10)
(equal `(start, end)` keys, different types) in the two possible orders
yields maps whose live sequences differ, refuting pointwise equality of
the observable sequences under permutation of insertions. -/
theorem C8_counterexample :
    addAll [⟨⟨0, 10⟩, MemoryRegionType.Usable⟩,
        ⟨⟨0, 10⟩, MemoryRegionType.Reserved⟩] =
      Except.ok ⟨[⟨⟨0, 10⟩, MemoryRegionType.Usable⟩,
        ⟨⟨0, 10⟩, MemoryRegionType.Reserved⟩] ++
        List.replicate 30 MemoryRegion.empty, 2⟩ ∧
    addAll [⟨⟨0, 10⟩, MemoryRegionType.Reserved⟩,
        ⟨⟨0, 10⟩, MemoryRegionType.Usable⟩] =
      Except.ok ⟨[⟨⟨0, 10⟩, MemoryRegionType.Reserved⟩,
        ⟨⟨0, 10⟩, MemoryRegionType.Usable⟩] ++
        List.replicate 30 MemoryRegion.empty, 2⟩ ∧
    ([⟨⟨0, 10⟩, MemoryRegionType.Usable⟩,
        ⟨⟨0, 10⟩, MemoryRegionType.Reserved⟩] : List MemoryRegion).Perm
      [⟨⟨0, 10⟩, MemoryRegionType.Reserved⟩,
        ⟨⟨0, 10⟩, MemoryRegionType.Usable⟩] ∧
    (⟨[⟨⟨0, 10⟩, MemoryRegionType.Usable⟩,
        ⟨⟨0, 10⟩, MemoryRegionType.Reserved⟩] ++
        List.replicate 30 MemoryRegion.empty, 2⟩ : MemoryMap).liveRegions ≠
      (⟨[⟨⟨0, 10⟩, MemoryRegionType.Reserved⟩,
        ⟨⟨0, 10⟩, MemoryRegionType.Usable⟩] ++
        List.replicate 30 MemoryRegion.empty, 2⟩ : MemoryMap).liveRegions := by
  refine ⟨by decide, by decide, ?_, by decide⟩
  exact List.Perm.swap _ _ _

/-- C8 (amended): permuting the insertion order yields live sequences
that are permutations of each other (equal as multisets); pointwise
equality can fail when two inserted regions share a `(start, end)`
key. -/
theorem C8_insertion_order_perm :
    ∀ (rs1 rs2 : List MemoryRegion) (m1 m2 : MemoryMap),
      rs1.Perm rs2 →
      addAll rs1 = Except.ok m1 → addAll rs2 = Except.ok m2 →
      m1.liveRegions.Perm m2.liveRegions := by
  intro rs1 rs2 m1 m2 hperm h1 h2
  have f1 := foldAdd_Inv rs1 MemoryMap.new m1 new_Inv h1
  have f2 := foldAdd_Inv rs2 MemoryMap.new m2 new_Inv h2
  rw [(Inv_live f1.1).1, (Inv_live f2.1).1]
  refine f1.2.trans (List.Perm.trans ?_ f2.2.symm)
  exact List.Perm.append_left _ (nonEmptyRegions_perm hperm)

theorem C8_witness :
    (⟨[⟨⟨0, 10⟩, MemoryRegionType.Usable⟩, ⟨⟨10, 20⟩, MemoryRegionType.Reserved⟩] ++
        List.replicate 30 MemoryRegion.empty, 2⟩ : MemoryMap).liveRegions.Perm
      (⟨[⟨⟨0, 10⟩, MemoryRegionType.Usable⟩, ⟨⟨10, 20⟩, MemoryRegionType.Reserved⟩] ++
        List.replicate 30 MemoryRegion.empty, 2⟩ : MemoryMap).liveRegions :=
  C8_insertion_order_perm
    [⟨⟨0, 10⟩, MemoryRegionType.Usable⟩, ⟨⟨10, 20⟩, MemoryRegionType.Reserved⟩]
    [⟨⟨10, 20⟩, MemoryRegionType.Reserved⟩, ⟨⟨0, 10⟩, MemoryRegionType.Usable⟩]
    ⟨[⟨⟨0, 10⟩, MemoryRegionType.Usable⟩, ⟨⟨10, 20⟩, MemoryRegionType.Reserved⟩] ++
      List.replicate 30 MemoryRegion.empty, 2⟩
    ⟨[⟨⟨0, 10⟩, MemoryRegionType.Usable⟩, ⟨⟨10, 20⟩, MemoryRegionType.Reserved⟩] ++
      List.replicate 30 MemoryRegion.empty, 2⟩
    (List.Perm.swap _ _ _) (by decide) (by decide)

/-- C9: the normalization pass is idempotent: a sequence it produced
without a fatal condition passes through unchanged a second time. -/
theorem C9_idempotent :
    ∀ (l live : List MemoryRegion), normalizePass l = Except.ok live →
      normalizePass live = Except.ok live := by
  intro l live h
  exact norm_id live (norm_chain l live h)

theorem C9_witness :
    normalizePass [⟨⟨0, 8⟩, MemoryRegionType.Usable⟩,
        ⟨⟨8, 20⟩, MemoryRegionType.Reserved⟩] =
      Except.ok [⟨⟨0, 8⟩, MemoryRegionType.Usable⟩,
        ⟨⟨8, 20⟩, MemoryRegionType.Reserved⟩] :=
  C9_idempotent [⟨⟨0, 10⟩, MemoryRegionType.Usable⟩,
    ⟨⟨8, 20⟩, MemoryRegionType.Reserved⟩]
    [⟨⟨0, 8⟩, MemoryRegionType.Usable⟩, ⟨⟨8, 20⟩, MemoryRegionType.Reserved⟩]
    (by decide)

/-- C10: for Usable [5,8) and Reserved [5,15) the normalization pass
truncates the usable region to the zero-length range [5,5), and that
empty-range region stays inside the exposed live sequence of the
returned map. -/
theorem C10_zero_length_live :
    create_from [⟨20480, 12288, 1, 0⟩, ⟨20480, 40960, 2, 0⟩] =
      Except.ok ⟨[⟨⟨5, 5⟩, MemoryRegionType.Usable⟩,
        ⟨⟨5, 15⟩, MemoryRegionType.Reserved⟩] ++
        List.replicate 30 MemoryRegion.empty, 2⟩ ∧
    (⟨[⟨⟨5, 5⟩, MemoryRegionType.Usable⟩,
        ⟨⟨5, 15⟩, MemoryRegionType.Reserved⟩] ++
        List.replicate 30 MemoryRegion.empty, 2⟩ : MemoryMap).liveRegions =
      [⟨⟨5, 5⟩, MemoryRegionType.Usable⟩,
       ⟨⟨5, 15⟩, MemoryRegionType.Reserved⟩] ∧
    (⟨⟨5, 5⟩, MemoryRegionType.Usable⟩ : MemoryRegion).range.start =
      (⟨⟨5, 5⟩, MemoryRegionType.Usable⟩ : MemoryRegion).range.stop := by
  exact ⟨by decide, by decide, rfl⟩
